import Mathlib

/-!
Verification of the Merkle-tree core of `contract_verifier.py`.

The source hashes contract clauses (arbitrary strings) with SHA-256,
builds a level-by-level Merkle tree with odd-node self-duplication,
generates sibling-path proofs, and verifies them.  The hash function is
modelled as an explicit parameter `hash_data : String → String`, since
the only thing the algorithms use is that it is a deterministic function
from strings to strings; theorems quantify over it (hypotheses such as
injectivity are added only where a claim needs them).
-/

/-- The sibling-side tag of a proof step: the source uses the string
literals 'left' and 'right' (a `Literal` type hint). -/
inductive Side where
  | left
  | right
deriving DecidableEq, Repr

/-- A Merkle proof is a list of (sibling hash, side) pairs, mirroring
`MerkleProof = List[Tuple[str, Literal['left', 'right']]]`. -/
abbrev MerkleProof := List (String × Side)

/-- One pass of the pairing loop inside `build_merkle_tree`
(lines 20–27): consecutive pairs left-to-right, the parent is
`hash_data (left ++ right)`, and an unpaired last node is duplicated
(`right_child = level[i+1] if i + 1 < len(level) else level[i]`). -/
def nextLevel (hash_data : String → String) : List String → List String
  | [] => []
  | [x] => [hash_data (x ++ x)]
  | x :: y :: rest => hash_data (x ++ y) :: nextLevel hash_data rest

/-- Length of one pairing pass: `ceil(n / 2) = (n + 1) / 2`. -/
theorem nextLevel_length (hash_data : String → String) :
    ∀ L : List String, (nextLevel hash_data L).length = (L.length + 1) / 2
  | [] => by simp [nextLevel]
  | [_] => by simp [nextLevel]
  | _ :: _ :: rest => by
    simp only [nextLevel, List.length_cons, nextLevel_length hash_data rest]
    omega

/-- The `while len(tree[-1]) > 1` loop of `build_merkle_tree`
(lines 14–29): the list of levels grown from a starting level. -/
def levels (hash_data : String → String) (level : List String) :
    List (List String) :=
  if 1 < level.length then
    level :: levels hash_data (nextLevel hash_data level)
  else
    [level]
termination_by level.length
decreasing_by
  rw [nextLevel_length]
  omega

/-- `build_merkle_tree` (lines 9–30): empty input gives an empty tree,
otherwise the levels grown from the leaf level. -/
def build_merkle_tree (hash_data : String → String)
    (leaf_hashes : List String) : List (List String) :=
  if leaf_hashes = [] then [] else levels hash_data leaf_hashes

/-- `get_merkle_root` (lines 32–34):
`tree[-1][0] if tree and tree[-1] else 'EMPTY_CONTRACT'`. -/
def get_merkle_root (tree : List (List String)) : String :=
  match tree.getLast? with
  | some lvl =>
    match lvl.head? with
    | some r => r
    | none => "EMPTY_CONTRACT"
  | none => "EMPTY_CONTRACT"

/-- The spec's name for the empty-tree sentinel; the source spells it
'EMPTY_CONTRACT'. -/
def EMPTY_ROOT : String := "EMPTY_CONTRACT"

/-- One step of the verifier's loop (lines 131–139): a sibling on the
left is prepended, a sibling on the right is appended, then hashed. -/
def stepApply (hash_data : String → String) (cur : String) :
    String × Side → String
  | (sib, Side.left) => hash_data (sib ++ cur)
  | (sib, Side.right) => hash_data (cur ++ sib)

/-- `verify_merkle_proof` (lines 125–146): fold the proof steps over the
target and compare with the expected root.  (The source's run-time check
for an invalid side string is unrepresentable here: `Side` is closed.) -/
def verify_merkle_proof (hash_data : String → String) (proof : MerkleProof)
    (target_hash merkle_root : String) : Bool :=
  proof.foldl (stepApply hash_data) target_hash == merkle_root

/-- The inner pair-scanning loop of `get_merkle_proof` (lines 92–112):
first pair containing the current hash wins; returns the proof step and
the parent hash for the next level, or `none` when the current hash is
found nowhere in the level (`found_in_level` stays false). -/
def scanLevel (hash_data : String → String) :
    List String → String → Option ((String × Side) × String)
  | [], _ => none
  | [x], cur =>
    if cur = x then some ((x, Side.right), hash_data (x ++ x)) else none
  | x :: y :: rest, cur =>
    if cur = x then some ((y, Side.right), hash_data (x ++ y))
    else if cur = y then some ((x, Side.left), hash_data (x ++ y))
    else scanLevel hash_data rest cur

/-- The outer level loop of `get_merkle_proof` (lines 89–118): climb the
given levels, accumulating proof steps; `none` models the early
`return []` taken when some level does not contain the current hash. -/
def proofLoop (hash_data : String → String) :
    List (List String) → String → Option MerkleProof
  | [], _ => some []
  | level :: rest, cur =>
    match scanLevel hash_data level cur with
    | none => none
    | some (step, parent) =>
      match proofLoop hash_data rest parent with
      | none => none
      | some p => some (step :: p)

/-- `get_merkle_proof` (lines 78–122): guard
`if not tree or not tree[0]: return []`, then the level loop over all
levels below the root (`range(len(tree) - 1)`), collapsing a failed
climb to the empty proof. -/
def get_merkle_proof (hash_data : String → String)
    (tree : List (List String)) (target_hash : String) : MerkleProof :=
  match tree with
  | [] => []
  | level0 :: _ =>
    if level0 = [] then []
    else
      match proofLoop hash_data tree.dropLast target_hash with
      | none => []
      | some p => p

/-- A concrete injective stand-in hash used to instantiate theorems on
concrete inputs. -/
def hashT (s : String) : String := "H" ++ s

/-- Default digest used for out-of-range list indexing in statements. -/
def dflt : String := ""

/-- The root computed directly by the pairing recursion; used to reason
about `levels` and proved equal to `get_merkle_root ∘ build_merkle_tree`
on non-empty input. -/
def rootR (hash_data : String → String) (L : List String) : String :=
  if 1 < L.length then rootR hash_data (nextLevel hash_data L)
  else L.headD dflt
termination_by L.length
decreasing_by
  rw [nextLevel_length]
  omega

theorem nextLevel_ne_nil (hash_data : String → String) (L : List String)
    (hL : L ≠ []) : nextLevel hash_data L ≠ [] := by
  intro hc
  have hlen := nextLevel_length hash_data L
  rw [hc] at hlen
  have : 0 < L.length := List.length_pos.mpr hL
  simp at hlen
  omega

theorem levels_head (hash_data : String → String) (L : List String) :
    ∃ t, levels hash_data L = L :: t := by
  rw [levels]
  split
  · exact ⟨_, rfl⟩
  · exact ⟨[], rfl⟩

theorem levels_getLast (hash_data : String → String) (L : List String)
    (hL : L ≠ []) :
    (levels hash_data L).getLast? = some [rootR hash_data L] := by
  by_cases h1 : 1 < L.length
  · have hM : nextLevel hash_data L ≠ [] := nextLevel_ne_nil hash_data L hL
    have ih := levels_getLast hash_data (nextLevel hash_data L) hM
    obtain ⟨t, ht⟩ := levels_head hash_data (nextLevel hash_data L)
    have hroot : rootR hash_data L =
        rootR hash_data (nextLevel hash_data L) := by
      rw [rootR, if_pos h1]
    rw [levels, if_pos h1, ht, List.getLast?_cons_cons, ← ht, ih, hroot]
  · obtain ⟨x, hx⟩ := List.length_eq_one.mp
      (Nat.le_antisymm (by omega) (List.length_pos.mpr hL))
    subst hx
    rw [levels, rootR]
    simp
termination_by L.length
decreasing_by
  rw [nextLevel_length]
  omega

theorem get_merkle_root_build (hash_data : String → String)
    (L : List String) (hL : L ≠ []) :
    get_merkle_root (build_merkle_tree hash_data L) = rootR hash_data L := by
  rw [build_merkle_tree, if_neg hL, get_merkle_root,
    levels_getLast hash_data L hL]
  rfl

theorem scanLevel_of_mem (hash_data : String → String) :
    ∀ (L : List String) (cur : String), cur ∈ L →
      ∃ step parent, scanLevel hash_data L cur = some (step, parent) ∧
        stepApply hash_data cur step = parent ∧
        parent ∈ nextLevel hash_data L
  | [], cur, hc => absurd hc (List.not_mem_nil cur)
  | [x], cur, hc => by
    have hx : cur = x := by simpa using hc
    subst hx
    exact ⟨(cur, Side.right), hash_data (cur ++ cur), by simp [scanLevel],
      rfl, by simp [nextLevel]⟩
  | x :: y :: rest, cur, hc => by
    by_cases hx : cur = x
    · subst hx
      exact ⟨(y, Side.right), hash_data (cur ++ y), by simp [scanLevel],
        rfl, by simp [nextLevel]⟩
    · by_cases hy : cur = y
      · subst hy
        exact ⟨(x, Side.left), hash_data (x ++ cur),
          by simp [scanLevel, hx], rfl, by simp [nextLevel]⟩
      · have hr : cur ∈ rest := by
          simp only [List.mem_cons] at hc
          rcases hc with h | h | h
          · exact absurd h hx
          · exact absurd h hy
          · exact h
        obtain ⟨step, parent, h1, h2, h3⟩ :=
          scanLevel_of_mem hash_data rest cur hr
        exact ⟨step, parent, by simp [scanLevel, hx, hy, h1], h2,
          by simp [nextLevel]; right; exact h3⟩

theorem scanLevel_of_not_mem (hash_data : String → String) :
    ∀ (L : List String) (cur : String), cur ∉ L →
      scanLevel hash_data L cur = none
  | [], _, _ => by simp [scanLevel]
  | [x], cur, hc => by
    have : cur ≠ x := by simpa using hc
    simp [scanLevel, this]
  | x :: y :: rest, cur, hc => by
    have hx : cur ≠ x := by simp at hc; tauto
    have hy : cur ≠ y := by simp at hc; tauto
    have hr : cur ∉ rest := by simp at hc; tauto
    simp [scanLevel, hx, hy, scanLevel_of_not_mem hash_data rest cur hr]

theorem proofLoop_levels (hash_data : String → String) (L : List String)
    (cur : String) (hc : cur ∈ L) :
    ∃ p : MerkleProof,
      proofLoop hash_data (levels hash_data L).dropLast cur = some p ∧
      p.foldl (stepApply hash_data) cur = rootR hash_data L ∧
      p.length = (levels hash_data L).length - 1 := by
  by_cases h1 : 1 < L.length
  · obtain ⟨step, parent, hscan, hstep, hparent⟩ :=
      scanLevel_of_mem hash_data L cur hc
    obtain ⟨p, hp, hfold, hlen⟩ :=
      proofLoop_levels hash_data (nextLevel hash_data L) parent hparent
    obtain ⟨t, ht⟩ := levels_head hash_data (nextLevel hash_data L)
    refine ⟨step :: p, ?_, ?_, ?_⟩
    · rw [levels, if_pos h1, ht, List.dropLast_cons₂]
      rw [ht] at hp
      simp only [proofLoop, hscan, hp]
    · have hroot : rootR hash_data L =
          rootR hash_data (nextLevel hash_data L) := by
        rw [rootR, if_pos h1]
      rw [List.foldl_cons, hstep, hfold, hroot]
    · have hne : (levels hash_data (nextLevel hash_data L)).length ≠ 0 := by
        rw [ht]; simp
      rw [levels, if_pos h1]
      simp only [List.length_cons, hlen]
      omega
  · have hL1 : L.length = 1 :=
      Nat.le_antisymm (by omega) (List.length_pos.mpr (List.ne_nil_of_mem hc))
    obtain ⟨x, hx⟩ := List.length_eq_one.mp hL1
    subst hx
    have hcx : cur = x := by simpa using hc
    subst hcx
    refine ⟨[], ?_, ?_, ?_⟩
    · rw [levels]
      simp [proofLoop]
    · rw [rootR]
      simp
    · rw [levels]
      simp
termination_by L.length
decreasing_by
  rw [nextLevel_length]
  omega

theorem levels_getD_succ (hash_data : String → String) (L : List String) :
    ∀ k : Nat, k + 1 < (levels hash_data L).length →
      (levels hash_data L).getD (k + 1) [] =
        nextLevel hash_data ((levels hash_data L).getD k []) := by
  by_cases h1 : 1 < L.length
  · intro k hk
    have ih := levels_getD_succ hash_data (nextLevel hash_data L)
    rw [levels, if_pos h1] at hk ⊢
    cases k with
    | zero =>
      obtain ⟨t, ht⟩ := levels_head hash_data (nextLevel hash_data L)
      rw [ht, List.getD_cons_succ, List.getD_cons_zero, List.getD_cons_zero]
    | succ k =>
      have hk' : k + 1 < (levels hash_data (nextLevel hash_data L)).length := by
        simp only [List.length_cons] at hk
        omega
      rw [List.getD_cons_succ, List.getD_cons_succ, ih k hk']
  · intro k hk
    rw [levels, if_neg h1] at hk
    simp at hk
termination_by L.length
decreasing_by
  rw [nextLevel_length]
  omega

theorem levels_getD_last (hash_data : String → String) (L : List String)
    (hL : L ≠ []) :
    (levels hash_data L).getD ((levels hash_data L).length - 1) [] =
      [rootR hash_data L] := by
  have hlast := levels_getLast hash_data L hL
  rw [List.getLast?_eq_getElem?] at hlast
  rw [List.getD_eq_getElem?_getD, hlast]
  rfl

theorem levels_length_le (hash_data : String → String) (L : List String)
    (hL : L ≠ []) : (levels hash_data L).length ≤ L.length := by
  by_cases h1 : 1 < L.length
  · have hM : nextLevel hash_data L ≠ [] := nextLevel_ne_nil hash_data L hL
    have ih := levels_length_le hash_data (nextLevel hash_data L) hM
    rw [levels, if_pos h1, List.length_cons]
    rw [nextLevel_length] at ih
    omega
  · have : 0 < L.length := List.length_pos.mpr hL
    rw [levels, if_neg h1]
    simp
    omega
termination_by L.length
decreasing_by
  rw [nextLevel_length]
  omega

/-- The parent formula of one pairing pass: entry `i` of the next level
is the hash of `level[2i]` concatenated with `level[2i+1]` when that
exists, else with a duplicate of `level[2i]`. -/
theorem nextLevel_getD (hash_data : String → String) :
    ∀ (L : List String) (i : Nat), i < (nextLevel hash_data L).length →
      (nextLevel hash_data L).getD i dflt =
        hash_data ((L.getD (2 * i) dflt) ++
          (if 2 * i + 1 < L.length then L.getD (2 * i + 1) dflt
           else L.getD (2 * i) dflt))
  | [], i, hi => absurd hi (by simp [nextLevel])
  | [x], i, hi => by
    have hi0 : i = 0 := by
      simp [nextLevel] at hi
      omega
    subst hi0
    simp [nextLevel]
  | x :: y :: rest, i, hi => by
    cases i with
    | zero =>
      have hcond : 2 * 0 + 1 < (x :: y :: rest).length := by
        simp
      rw [if_pos hcond]
      simp [nextLevel]
    | succ i =>
      have hi' : i < (nextLevel hash_data rest).length := by
        simp [nextLevel] at hi
        omega
      have ih := nextLevel_getD hash_data rest i hi'
      have h2 : 2 * (i + 1) = 2 * i + 1 + 1 := by ring
      rw [h2]
      simp only [List.getD_cons_succ]
      rw [show nextLevel hash_data (x :: y :: rest) =
        hash_data (x ++ y) :: nextLevel hash_data rest from rfl]
      rw [List.getD_cons_succ, ih]
      by_cases hc : 2 * i + 1 < rest.length
      · rw [if_pos hc, if_pos (by simp only [List.length_cons]; omega)]
      · rw [if_neg hc, if_neg (by simp only [List.length_cons]; omega)]

theorem get_proof_fold (hash_data : String → String) (L : List String)
    (cur : String) (hc : cur ∈ L) :
    (get_merkle_proof hash_data (build_merkle_tree hash_data L)
        cur).foldl (stepApply hash_data) cur = rootR hash_data L ∧
    (get_merkle_proof hash_data (build_merkle_tree hash_data L)
        cur).length = (build_merkle_tree hash_data L).length - 1 := by
  have hL : L ≠ [] := List.ne_nil_of_mem hc
  obtain ⟨p, hp, hfold, hlen⟩ := proofLoop_levels hash_data L cur hc
  obtain ⟨t, ht⟩ := levels_head hash_data L
  have hproof : get_merkle_proof hash_data (build_merkle_tree hash_data L)
      cur = p := by
    rw [build_merkle_tree, if_neg hL, ht, get_merkle_proof]
    rw [ht] at hp
    rw [if_neg hL, hp]
  rw [build_merkle_tree, if_neg hL] at hproof ⊢
  rw [hproof]
  exact ⟨hfold, hlen⟩

theorem getD_mem_of_lt (L : List String) (i : Nat) (hi : i < L.length) :
    L.getD i dflt ∈ L := by
  rw [List.getD_eq_getElem L dflt hi]
  exact List.getElem_mem hi

/-- C1: for every non-empty list of digest strings `L` and every index
`i` in range, verifying the proof generated for `L[i]` from the tree
built over `L`, against that tree's root, returns true. -/
theorem merkle_round_trip (hash_data : String → String) (L : List String)
    (i : Nat) (hi : i < L.length) :
    verify_merkle_proof hash_data
      (get_merkle_proof hash_data (build_merkle_tree hash_data L)
        (L.getD i dflt))
      (L.getD i dflt)
      (get_merkle_root (build_merkle_tree hash_data L)) = true := by
  have hc : L.getD i dflt ∈ L := getD_mem_of_lt L i hi
  have hL : L ≠ [] := List.ne_nil_of_mem hc
  rw [verify_merkle_proof, (get_proof_fold hash_data L _ hc).1,
    get_merkle_root_build hash_data L hL]
  exact beq_self_eq_true _

/-- Witness for C1 at the concrete three-leaf list, index 1. -/
theorem merkle_round_trip_witness :
    verify_merkle_proof hashT
      (get_merkle_proof hashT (build_merkle_tree hashT ["a", "b", "c"])
        ((["a", "b", "c"] : List String).getD 1 dflt))
      ((["a", "b", "c"] : List String).getD 1 dflt)
      (get_merkle_root (build_merkle_tree hashT ["a", "b", "c"])) = true :=
  merkle_round_trip hashT ["a", "b", "c"] 1 (by decide)

/-- C2: a 3-leaf list `[a, b, c]` has root
`hash (hash (a ++ b) ++ hash (c ++ c))`, and in general entry `i` of a
parent level is the hash of `level[2i]` concatenated with `level[2i+1]`
when it exists, otherwise with a duplicate of `level[2i]`. -/
theorem odd_node_duplication (hash_data : String → String)
    (a b c : String) :
    get_merkle_root (build_merkle_tree hash_data [a, b, c]) =
      hash_data (hash_data (a ++ b) ++ hash_data (c ++ c)) ∧
    (∀ (level : List String) (i : Nat),
      i < (nextLevel hash_data level).length →
      (nextLevel hash_data level).getD i dflt =
        hash_data ((level.getD (2 * i) dflt) ++
          (if 2 * i + 1 < level.length then level.getD (2 * i + 1) dflt
           else level.getD (2 * i) dflt))) := by
  refine ⟨?_, nextLevel_getD hash_data⟩
  simp [build_merkle_tree, levels, nextLevel, get_merkle_root]

/-- Witness for C2: the parent formula instantiated at a concrete level
and index (the root equation of the theorem needs no hypothesis). -/
theorem odd_node_duplication_witness :
    get_merkle_root (build_merkle_tree hashT ["a", "b", "c"]) =
      hashT (hashT ("a" ++ "b") ++ hashT ("c" ++ "c")) ∧
    (nextLevel hashT ["x", "y", "z"]).getD 1 dflt =
      hashT (((["x", "y", "z"] : List String).getD (2 * 1) dflt) ++
        (if 2 * 1 + 1 < (["x", "y", "z"] : List String).length
         then (["x", "y", "z"] : List String).getD (2 * 1 + 1) dflt
         else (["x", "y", "z"] : List String).getD (2 * 1) dflt)) :=
  ⟨(odd_node_duplication hashT "a" "b" "c").1,
   (odd_node_duplication hashT "a" "b" "c").2 ["x", "y", "z"] 1 (by decide)⟩

/-- C3 (amended): a proof generated from tree A for leaf `A[i]` verifies
against tree B's root exactly when the two roots are equal; differing in
a leaf does not by itself force failure, since distinct leaf lists can
share a root (see the counterexample). -/
theorem proof_transfer_iff (hash_data : String → String)
    (A B : List String) (i : Nat) (hi : i < A.length) :
    (verify_merkle_proof hash_data
        (get_merkle_proof hash_data (build_merkle_tree hash_data A)
          (A.getD i dflt))
        (A.getD i dflt)
        (get_merkle_root (build_merkle_tree hash_data B)) = true) ↔
    get_merkle_root (build_merkle_tree hash_data A) =
      get_merkle_root (build_merkle_tree hash_data B) := by
  have hc : A.getD i dflt ∈ A := getD_mem_of_lt A i hi
  have hA : A ≠ [] := List.ne_nil_of_mem hc
  rw [verify_merkle_proof, (get_proof_fold hash_data A _ hc).1,
    get_merkle_root_build hash_data A hA]
  exact beq_iff_eq

/-- Witness for C3's amended theorem at concrete two-leaf lists. -/
theorem proof_transfer_iff_witness :
    (verify_merkle_proof hashT
        (get_merkle_proof hashT (build_merkle_tree hashT ["a", "b"])
          ((["a", "b"] : List String).getD 0 dflt))
        ((["a", "b"] : List String).getD 0 dflt)
        (get_merkle_root (build_merkle_tree hashT ["c", "d"])) = true) ↔
    get_merkle_root (build_merkle_tree hashT ["a", "b"]) =
      get_merkle_root (build_merkle_tree hashT ["c", "d"]) :=
  proof_transfer_iff hashT ["a", "b"] ["c", "d"] 0 (by decide)

/-- C3 counterexample: the leaf lists `["ab", "c"]` and `["a", "bc"]`
differ in their first leaf, yet the proof generated from the first tree
for its leaf "ab" verifies against the second tree's root, because both
trees have root `hashT "abc"`. -/
theorem proof_transfer_counterexample :
    (["ab", "c"] : List String) ≠ ["a", "bc"] ∧
    verify_merkle_proof hashT
      (get_merkle_proof hashT (build_merkle_tree hashT ["ab", "c"]) "ab")
      "ab"
      (get_merkle_root (build_merkle_tree hashT ["a", "bc"])) = true := by
  constructor
  · decide
  · simp [build_merkle_tree, levels, nextLevel, hashT, get_merkle_proof,
      proofLoop, scanLevel, get_merkle_root, verify_merkle_proof, stepApply]

/-- C4: each level of a built tree has `ceil` of half the length of the
level below it, and the final level has exactly one digest. -/
theorem tree_shape (hash_data : String → String) (L : List String)
    (hL : L ≠ []) :
    (∀ k : Nat, k + 1 < (build_merkle_tree hash_data L).length →
      ((build_merkle_tree hash_data L).getD (k + 1) []).length =
        (((build_merkle_tree hash_data L).getD k []).length + 1) / 2) ∧
    ((build_merkle_tree hash_data L).getD
        ((build_merkle_tree hash_data L).length - 1) []).length = 1 := by
  rw [build_merkle_tree, if_neg hL]
  constructor
  · intro k hk
    rw [levels_getD_succ hash_data L k hk, nextLevel_length]
  · rw [levels_getD_last hash_data L hL]
    rfl

/-- Witness for C4 at a concrete three-leaf list, adjacent levels 0, 1. -/
theorem tree_shape_witness :
    ((build_merkle_tree hashT ["a", "b", "c"]).getD (0 + 1) []).length =
      (((build_merkle_tree hashT ["a", "b", "c"]).getD 0 []).length + 1) /
        2 ∧
    ((build_merkle_tree hashT ["a", "b", "c"]).getD
        ((build_merkle_tree hashT ["a", "b", "c"]).length - 1) []).length =
      1 :=
  ⟨(tree_shape hashT ["a", "b", "c"] (by simp)).1 0
      (by simp [build_merkle_tree, levels, nextLevel, hashT]),
   (tree_shape hashT ["a", "b", "c"] (by simp)).2⟩

/-- C5: the proof generated for a target occurring at level 0 has
exactly one step per level below the root. -/
theorem proof_length_levels (hash_data : String → String)
    (L : List String) (t : String) (ht : t ∈ L) :
    (get_merkle_proof hash_data (build_merkle_tree hash_data L) t).length =
      (build_merkle_tree hash_data L).length - 1 :=
  (get_proof_fold hash_data L t ht).2

/-- Witness for C5 at a concrete three-leaf list. -/
theorem proof_length_levels_witness :
    (get_merkle_proof hashT (build_merkle_tree hashT ["a", "b", "c"])
        "b").length =
      (build_merkle_tree hashT ["a", "b", "c"]).length - 1 :=
  proof_length_levels hashT ["a", "b", "c"] "b" (by decide)

/-- C6: a single-leaf tree is `[[d]]` with root `d` (no hashing), its
proof is empty, and the empty proof verifies `d` against root `d`. -/
theorem single_leaf_tree (hash_data : String → String) (d : String) :
    build_merkle_tree hash_data [d] = [[d]] ∧
    get_merkle_root (build_merkle_tree hash_data [d]) = d ∧
    get_merkle_proof hash_data (build_merkle_tree hash_data [d]) d = [] ∧
    verify_merkle_proof hash_data [] d d = true := by
  have hb : build_merkle_tree hash_data [d] = [[d]] := by
    rw [build_merkle_tree, if_neg (by simp), levels]
    simp
  refine ⟨hb, ?_, ?_, ?_⟩
  · rw [hb]
    rfl
  · rw [hb]
    simp [get_merkle_proof, proofLoop]
  · simp [verify_merkle_proof]

/-- C7: the empty leaf list gives an empty tree, the sentinel root, and
an empty proof for every target. -/
theorem empty_input_tree (hash_data : String → String) (t : String) :
    build_merkle_tree hash_data [] = [] ∧
    get_merkle_root (build_merkle_tree hash_data []) = EMPTY_ROOT ∧
    get_merkle_proof hash_data (build_merkle_tree hash_data []) t = [] := by
  refine ⟨?_, ?_, ?_⟩ <;>
    simp [build_merkle_tree, get_merkle_root, EMPTY_ROOT, get_merkle_proof]

/-- C8: on a tree built from at least two leaves, a target absent from
level 0 yields the empty proof. -/
theorem not_found_empty_proof (hash_data : String → String)
    (L : List String) (t : String) (hlen : 2 ≤ L.length) (ht : t ∉ L) :
    get_merkle_proof hash_data (build_merkle_tree hash_data L) t = [] := by
  have hL : L ≠ [] := by
    intro hc
    rw [hc] at hlen
    simp at hlen
  have h1 : 1 < L.length := hlen
  obtain ⟨tl, htl⟩ := levels_head hash_data (nextLevel hash_data L)
  rw [build_merkle_tree, if_neg hL, levels, if_pos h1, htl]
  simp only [get_merkle_proof, List.dropLast_cons₂, proofLoop,
    scanLevel_of_not_mem hash_data L t ht, if_neg hL]

/-- Witness for C8 at a concrete two-leaf tree and absent target. -/
theorem not_found_empty_proof_witness :
    get_merkle_proof hashT (build_merkle_tree hashT ["a", "b"]) "z" = [] :=
  not_found_empty_proof hashT ["a", "b"] "z" (by decide) (by decide)

/-- C9: on a one-level tree `[[d]]` the proof is empty for every target,
present or not. -/
theorem one_level_tree_proof (hash_data : String → String)
    (d t : String) : get_merkle_proof hash_data [[d]] t = [] := by
  simp [get_merkle_proof, proofLoop]

/-- C10: the pairing pass strictly shrinks any level of more than one
node to `ceil` of half its size, so tree building terminates; the built
tree in fact has no more levels than leaves. -/
theorem build_terminates (hash_data : String → String) (L : List String) :
    (1 < L.length →
      (nextLevel hash_data L).length = (L.length + 1) / 2 ∧
      (nextLevel hash_data L).length < L.length) ∧
    (build_merkle_tree hash_data L).length ≤ L.length := by
  constructor
  · intro h1
    refine ⟨nextLevel_length hash_data L, ?_⟩
    rw [nextLevel_length]
    omega
  · by_cases hL : L = []
    · subst hL
      simp [build_merkle_tree]
    · rw [build_merkle_tree, if_neg hL]
      exact levels_length_le hash_data L hL

/-- Witness for C10 at a concrete three-leaf list. -/
theorem build_terminates_witness :
    ((nextLevel hashT ["a", "b", "c"]).length =
        ((["a", "b", "c"] : List String).length + 1) / 2 ∧
      (nextLevel hashT ["a", "b", "c"]).length <
        (["a", "b", "c"] : List String).length) ∧
    (build_merkle_tree hashT ["a", "b", "c"]).length ≤
      (["a", "b", "c"] : List String).length :=
  ⟨(build_terminates hashT ["a", "b", "c"]).1 (by decide),
   (build_terminates hashT ["a", "b", "c"]).2⟩
